import Mathlib

/-!
# genpass: password generator (`main.go`)

A shallow embedding of the core of `main.go` and the properties of its
specification.

## Data model

* A Go `string` is a finite sequence of bytes: `List Nat`, each byte a natural
  number below 256 (`IsGoString`).  The three class constants are ASCII, so
  their bytes are their characters.
* A Go `rune` is an `Int` (Go's `int32`); `-1` is the "drop this character"
  answer of the callback given to `strings.Map`.
* `for _, r := range s` decodes UTF-8: `rangeRunes`, built on
  `DecodeRuneInString` (an invalid byte gives `RuneError` and advances by one
  byte, as in Go).
* The global random source of `math/rand` is a stream of raw values and a
  position (`Rand`); `rand.Intn n` panics for `n ≤ 0` and otherwise returns a
  value below `n` and advances the position.
* `generatePassword` calls itself on an invalid candidate; the embedding takes
  the number of such nested calls it may make as `fuel`, and reports
  `Run.diverge` when it would need one more.
* `main` is a function of the parsed flags (`Config`) and of the random source; it
  gives the exit code and the lines written to standard output, or panics when
  `make([]string, count)` rejects the count (`makeStrings`).  The logger is a
  level and the entries written (`Logger`); `buildCharSetLog` is `buildCharSet`
  with its logger.
-/

namespace Genpass

/-! ## The constants of `main.go` (lines 15-19) -/

/-- The bytes of an ASCII string literal. -/
def bytes (s : String) : List Nat := s.toList.map Char.toNat

/-- Constant `digits`. -/
def digits : List Nat := bytes "0123456789"

/-- Constant `letters`. -/
def letters : List Nat := bytes "abcdefghijklmnopqrstuvwxyzABCDEFGHIJKLMNOPQRSTUVWXYZ"

/-- Constant `specials`. -/
def specials : List Nat := bytes "~%^&*_-@!+#$"

/-- A list of naturals is a Go string when every element is a byte. -/
def IsGoString (s : List Nat) : Bool := s.all (fun b => b < 256)

/-! ## The parts of Go's `unicode/utf8`, `strings` and `unicode` that `main.go` calls -/

/-- Constant `utf8.RuneError`, U+FFFD. -/
def RuneError : Int := 0xFFFD

/-- Table `first` of `unicode/utf8` for a leading byte `s0 ≥ 0x80`: the length of
the sequence it starts and the range accepted for the second byte; `none` for an
invalid leading byte (entry `xx`). -/
def first (s0 : Nat) : Option (Nat × Nat × Nat) :=
  if 0xC2 ≤ s0 ∧ s0 ≤ 0xDF then some (2, 0x80, 0xBF)
  else if s0 = 0xE0 then some (3, 0xA0, 0xBF)
  else if (0xE1 ≤ s0 ∧ s0 ≤ 0xEC) ∨ s0 = 0xEE ∨ s0 = 0xEF then some (3, 0x80, 0xBF)
  else if s0 = 0xED then some (3, 0x80, 0x9F)
  else if s0 = 0xF0 then some (4, 0x90, 0xBF)
  else if 0xF1 ≤ s0 ∧ s0 ≤ 0xF3 then some (4, 0x80, 0xBF)
  else if s0 = 0xF4 then some (4, 0x80, 0x8F)
  else none

/-- Function `utf8.DecodeRuneInString`: the first rune of `s` and its width in bytes.
Masks and shifts are written as remainders and products (`b & 0x3F = b % 64`,
`x << 6 = x * 64`, and `|` of disjoint bit fields is `+`). -/
def DecodeRuneInString : List Nat → Int × Nat
  | [] => (RuneError, 0)
  | s0 :: rest =>
    if s0 < 0x80 then ((s0 : Int), 1)
    else
      match first s0 with
      | none => (RuneError, 1)
      | some (sz, lo, hi) =>
        match rest with
        | [] => (RuneError, 1)
        | s1 :: rest1 =>
          if s1 < lo ∨ hi < s1 then (RuneError, 1)
          else if sz ≤ 2 then ((((s0 % 32) * 64 + s1 % 64 : Nat) : Int), 2)
          else
            match rest1 with
            | [] => (RuneError, 1)
            | s2 :: rest2 =>
              if s2 < 0x80 ∨ 0xBF < s2 then (RuneError, 1)
              else if sz ≤ 3 then
                ((((s0 % 16) * 4096 + (s1 % 64) * 64 + s2 % 64 : Nat) : Int), 3)
              else
                match rest2 with
                | [] => (RuneError, 1)
                | s3 :: _ =>
                  if s3 < 0x80 ∨ 0xBF < s3 then (RuneError, 1)
                  else
                    ((((s0 % 8) * 262144 + (s1 % 64) * 4096 + (s2 % 64) * 64 + s3 % 64 : Nat)
                      : Int), 4)

/-- The runes of `for _, r := range s`, when the next `skip` bytes belong to the
rune decoded last. -/
def rangeRunesAux : Nat → List Nat → List Int
  | _, [] => []
  | skip + 1, _ :: rest => rangeRunesAux skip rest
  | 0, b :: rest =>
    (DecodeRuneInString (b :: rest)).1 ::
      rangeRunesAux ((DecodeRuneInString (b :: rest)).2 - 1) rest

/-- The runes that `for _, r := range s` visits, in order. -/
def rangeRunes (s : List Nat) : List Int := rangeRunesAux 0 s

/-- Function `utf8.AppendRune` on an empty buffer: the UTF-8 encoding of `r`; a rune
that is out of range or a surrogate is encoded as U+FFFD. -/
def encodeRune (r : Int) : List Nat :=
  let i := r.toNat
  if 0 ≤ r ∧ r ≤ 0x7F then [i]
  else if 0 ≤ r ∧ r ≤ 0x7FF then [0xC0 + i / 64, 0x80 + i % 64]
  else if r < 0 ∨ 0x10FFFF < r ∨ (0xD800 ≤ r ∧ r ≤ 0xDFFF) then [0xEF, 0xBF, 0xBD]
  else if r ≤ 0xFFFF then [0xE0 + i / 4096, 0x80 + (i / 64) % 64, 0x80 + i % 64]
  else [0xF0 + i / 262144, 0x80 + (i / 4096) % 64, 0x80 + (i / 64) % 64, 0x80 + i % 64]

/-- Function `strings.Contains` on byte strings: `sub` occurs in `s`. -/
def Contains : List Nat → List Nat → Bool
  | [], sub => sub.isEmpty
  | b :: rest, sub => sub.isPrefixOf (b :: rest) || Contains rest sub

/-- Function `strings.ContainsRune` (`IndexRune(s, r) >= 0`): a byte search for an
ASCII rune, a search for an invalid sequence for `RuneError`, nothing for an invalid
rune, and a substring search for the encoding of any other rune. -/
def ContainsRune (s : List Nat) (r : Int) : Bool :=
  if 0 ≤ r ∧ r < 0x80 then s.contains r.toNat
  else if r = RuneError then (rangeRunes s).contains RuneError
  else if r < 0 ∨ 0x10FFFF < r ∨ (0xD800 ≤ r ∧ r ≤ 0xDFFF) then false
  else Contains s (encodeRune r)

/-- Function `strings.ContainsAny` (`IndexAny(s, chars) >= 0`), branch by branch. -/
def ContainsAny (s chars : List Nat) : Bool :=
  match chars with
  | [] => false
  | [c] => ContainsRune s (if 0x80 ≤ c then RuneError else (c : Int))
  | _ =>
    if 8 < s.length ∧ chars.all (fun c => c < 0x80) then s.any (fun b => chars.contains b)
    else (rangeRunes s).any (fun c => ContainsRune chars c)

/-- Function `strings.Map`: every rune of `s` is replaced by the encoding of
`mapping r`, and dropped when `mapping r` is negative. -/
def Map (mapping : Int → Int) (s : List Nat) : List Nat :=
  ((rangeRunes s).map (fun c => if 0 ≤ mapping c then encodeRune (mapping c) else [])).flatten

/-- The tables of package `unicode` beyond Latin-1 (`isExcludingLatin(Digit, r)` and
`isExcludingLatin(Letter, r)`), which are not part of this repository. -/
structure UnicodeTables where
  digit : Int → Bool
  letter : Int → Bool

/-- Function `unicode.IsDigit`. -/
def IsDigit (T : UnicodeTables) (r : Int) : Bool :=
  if r ≤ 0xFF then decide (0x30 ≤ r ∧ r ≤ 0x39) else T.digit r

/-- Function `unicode.IsLetter`: in Latin-1 the letters are `A-Z`, `a-z`, U+00AA,
U+00B5, U+00BA and U+00C0-U+00FF without U+00D7 and U+00F7. -/
def IsLetter (T : UnicodeTables) (r : Int) : Bool :=
  if 0 ≤ r ∧ r ≤ 0xFF then
    decide ((0x41 ≤ r ∧ r ≤ 0x5A) ∨ (0x61 ≤ r ∧ r ≤ 0x7A) ∨ r = 0xAA ∨ r = 0xB5 ∨ r = 0xBA ∨
      (0xC0 ≤ r ∧ r ≠ 0xD7 ∧ r ≠ 0xF7))
  else T.letter r

/-! ## `buildCharSet` (lines 95-135) -/

/-- The callback that `buildCharSet` gives to `strings.Map` (lines 119-124). -/
def excludeMapping (exclude : List Nat) (r : Int) : Int :=
  if !ContainsRune exclude r then r else -1

/-- Function `buildCharSet`; the logger only writes to the log and is left out. -/
def buildCharSet (useDigits useLetters useSpecials : Bool) (exclude : List Nat) : List Nat :=
  let builder : List Nat := []
  let builder := if useDigits then builder ++ digits else builder
  let builder := if useLetters then builder ++ letters else builder
  let builder := if useSpecials then builder ++ specials else builder
  let charSet := builder
  if charSet = [] then []
  else
    let charSet := if exclude ≠ [] then Map (excludeMapping exclude) charSet else charSet
    charSet

/-! ## `isPasswordValid` (lines 161-180) -/

/-- The three local variables of `isPasswordValid`. -/
structure Flags where
  hasDigit : Bool
  hasLetter : Bool
  hasSpecial : Bool
deriving DecidableEq

/-- One iteration of the loop of `isPasswordValid`: the `switch` on the rune `r`
(lines 167-174); the first case that holds is taken. -/
def validStep (T : UnicodeTables) (f : Flags) (r : Int) : Flags :=
  if IsDigit T r then { f with hasDigit := true }
  else if IsLetter T r then { f with hasLetter := true }
  else if ContainsRune specials r then { f with hasSpecial := true }
  else f

/-- The flags after the loop of `isPasswordValid` (lines 162-175). -/
def validFlags (T : UnicodeTables) (password : List Nat) : Flags :=
  (rangeRunes password).foldl (validStep T) ⟨false, false, false⟩

/-- Function `isPasswordValid`. -/
def isPasswordValid (T : UnicodeTables) (password : List Nat) : Bool :=
  let f := validFlags T password
  (f.hasDigit || !ContainsAny password digits) &&
    (f.hasLetter || !ContainsAny password letters) &&
    (f.hasSpecial || !ContainsAny password specials)

/-! ## `generatePassword` (lines 137-159) -/

/-- The global source of `math/rand`: the raw values it will produce and how many
of them have been consumed. -/
structure Rand where
  src : Nat → Nat
  pos : Nat

/-- Function `rand.Intn`: `none` is the panic for `n ≤ 0`; otherwise a value in
`[0, n)` and the advanced source. -/
def Rand.Intn (g : Rand) (n : Int) : Option (Int × Rand) :=
  if n ≤ 0 then none else some (((g.src g.pos : Nat) : Int) % n, { g with pos := g.pos + 1 })

/-- The outcome of running a function of the program. -/
inductive Run (α : Type) where
  /-- the function returned -/
  | done (a : α)
  /-- a run-time panic: `rand.Intn` with a non-positive bound, or an index out of range -/
  | panicked
  /-- the nested calls exceeded the fuel -/
  | diverge
deriving DecidableEq

/-- What `generatePassword` returns: the string, the error (`none` is `nil`), and
the random source as the call left it. -/
structure GenResult where
  password : List Nat
  err : Option String
  rng : Rand

/-- Indexing `charSet[idx]`: `none` is the index-out-of-range panic. -/
def byteAt (charSet : List Nat) (idx : Int) : Option Nat :=
  if idx < 0 then none else charSet[idx.toNat]?

/-- The loop of lines 146-149 with `n` iterations left: each one draws
`rand.Intn(len(charSet))` and writes the byte `charSet[idx]` to the builder. -/
def drawLoop (charSet : List Nat) : Nat → Rand → List Nat → Option (List Nat × Rand)
  | 0, g, password => some (password, g)
  | n + 1, g, password =>
    match g.Intn (charSet.length : Int) with
    | none => none
    | some (idx, g1) =>
      match byteAt charSet idx with
      | none => none
      | some b => drawLoop charSet n g1 (password ++ [b])

/-- The message of the error of line 139. -/
def emptyCharSetError : String := "пустой набор символов"

/-- Function `generatePassword`; `fuel` bounds the depth of the nested call of
line 155.  `rand.New(...)` on line 142 builds a source that is never used: the
draws come from the global source.  The loop `for i := 0; i < length; i++` makes
`length` iterations, none when `length ≤ 0`. -/
def generatePassword (T : UnicodeTables) (fuel : Nat) (length : Int) (charSet : List Nat)
    (g : Rand) : Run GenResult :=
  if charSet.length = 0 then Run.done ⟨[], some emptyCharSetError, g⟩
  else
    match drawLoop charSet length.toNat g [] with
    | none => Run.panicked
    | some (result, g1) =>
      if !isPasswordValid T result then
        match fuel with
        | 0 => Run.diverge
        | fuel + 1 => generatePassword T fuel length charSet g1
      else Run.done ⟨result, none, g1⟩

/-- The bytes that `n` successive draws select from `charSet`, the first draw being
the value of the source at position `pos`: the byte at index `src pos % len(charSet)`,
then the one for `pos + 1`, and so on. -/
def picks (charSet : List Nat) (src : Nat → Nat) : Nat → Nat → List Nat
  | _, 0 => []
  | pos, n + 1 => charSet.getD (src pos % charSet.length) 0 :: picks charSet src (pos + 1) n

/-! ## The notions of the specification -/

/-- The character classes of the specification. -/
inductive CharacterClass where
  | Digit
  | Letter
  | Special
deriving DecidableEq

/-- The fixed characters that back a class. -/
def CharacterClass.chars : CharacterClass → List Nat
  | CharacterClass.Digit => digits
  | CharacterClass.Letter => letters
  | CharacterClass.Special => specials

/-- A class is live in an alphabet that has at least one of its characters. -/
def live (c : CharacterClass) (alphabet : List Nat) : Bool :=
  alphabet.any (fun b => c.chars.contains b)

/-- A class is represented in a password that has at least one of its characters. -/
def represented (c : CharacterClass) (password : List Nat) : Bool :=
  password.any (fun b => c.chars.contains b)

/-- The validity rule of the specification (section 4.3): every class is not live
in the alphabet or is represented in the password. -/
def validityRule (alphabet password : List Nat) : Bool :=
  (!live CharacterClass.Digit alphabet || represented CharacterClass.Digit password) &&
    (!live CharacterClass.Letter alphabet || represented CharacterClass.Letter password) &&
    (!live CharacterClass.Special alphabet || represented CharacterClass.Special password)

/-- The constants of the enabled classes, concatenated in the order digits, letters,
specials. -/
def enabledChars (useDigits useLetters useSpecials : Bool) : List Nat :=
  (if useDigits then digits else []) ++ (if useLetters then letters else []) ++
    (if useSpecials then specials else [])

/-- The alphabet as the specification defines it (section 4.1): the concatenation of
the enabled classes without the characters that occur in `exclude`, the characters of
`exclude` being the ones that `range exclude` visits. -/
def buildAlphabetRef (useDigits useLetters useSpecials : Bool) (exclude : List Nat) :
    List Nat :=
  (enabledChars useDigits useLetters useSpecials).filter
    (fun c => !(rangeRunes exclude).contains (c : Int))

/-- The Unicode tables used in the examples; no example reaches them. -/
def noTables : UnicodeTables := ⟨fun _ => false, fun _ => false⟩

/-! ## The logger -/

/-- The logger of `main` as far as the program uses it: its level (logrus numbers
them `panic = 0`, `fatal = 1`, `error = 2`, `warn = 3`, `info = 4`, `debug = 5`,
`trace = 6`) and the entries written so far, each with its level and message. -/
structure Logger where
  level : Nat
  out : List (Nat × String)
deriving DecidableEq

/-- An entry of level `lvl` is written when the logger's level enables it. -/
def Logger.log (lg : Logger) (lvl : Nat) (msg : String) : Logger :=
  if lvl ≤ lg.level then { lg with out := lg.out ++ [(lvl, msg)] } else lg

/-- Method `logger.Debug` and `logger.Debugf`. -/
def Logger.Debug (lg : Logger) (msg : String) : Logger := lg.log 5 msg

/-- Method `logger.Warn`. -/
def Logger.Warn (lg : Logger) (msg : String) : Logger := lg.log 3 msg

/-- Function `buildCharSet` with its logger: the alphabet it returns and the logger
as the call leaves it. -/
def buildCharSetLog (useDigits useLetters useSpecials : Bool) (exclude : List Nat)
    (logger : Logger) : List Nat × Logger :=
  let builder : List Nat := []
  let (builder, logger) :=
    if useDigits then (builder ++ digits, logger.Debug "Добавлены цифры")
    else (builder, logger)
  let (builder, logger) :=
    if useLetters then (builder ++ letters, logger.Debug "Добавлены буквы")
    else (builder, logger)
  let (builder, logger) :=
    if useSpecials then (builder ++ specials, logger.Debug "Добавлены спецсимволы")
    else (builder, logger)
  let charSet := builder
  if charSet = [] then ([], logger)
  else if exclude ≠ [] then
    let originalLen := charSet.length
    let filtered := Map (excludeMapping exclude) charSet
    let logger :=
      if filtered.length = 0 then logger.Warn "Все символы исключены"
      else if filtered.length < originalLen then
        logger.Debug ("Исключено символов: " ++ toString (originalLen - filtered.length))
      else logger
    (filtered, logger)
  else (charSet, logger)

/-! ## `main` (lines 21-93) -/

/-- The values of the flags after `flag.Parse()`. -/
structure Config where
  length : Int
  useDigits : Bool
  useLetters : Bool
  useSpecials : Bool
  count : Int
  exclude : List Nat
  logLevel : List Nat

/-- The state of the loop of lines 77-84: the slice `passwords`, the global random
source, and how many times the branch of lines 79-82 (log the error and skip the
slot) was taken. -/
structure LoopState where
  passwords : List (List Nat)
  rng : Rand
  skipped : Nat

/-- The loop of lines 77-84 with `n` iterations left, `i` being the slot of the next
one. -/
def genLoop (T : UnicodeTables) (fuel : Nat) (length : Int) (charSet : List Nat) :
    Nat → Nat → LoopState → Run LoopState
  | 0, _, st => Run.done st
  | n + 1, i, st =>
    match generatePassword T fuel length charSet st.rng with
    | Run.done r =>
      match r.err with
      | some _ => genLoop T fuel length charSet n (i + 1)
          { st with rng := r.rng, skipped := st.skipped + 1 }
      | none => genLoop T fuel length charSet n (i + 1)
          { st with passwords := st.passwords.set i r.password, rng := r.rng }
    | Run.panicked => Run.panicked
    | Run.diverge => Run.diverge

/-- What a run of `main` leaves: the exit code, the lines written to standard output,
and how many slots the generation loop skipped. -/
structure MainResult where
  exitCode : Nat
  stdout : List (List Nat)
  skipped : Nat
deriving DecidableEq

/-- Built-in `make([]string, n)` of line 76: the run-time function `makeslice` panics
("makeslice: len out of range") when `n` is negative or exceeds `maxSlice`, and
otherwise gives a slice of `n` empty strings.  `none` is the panic. -/
def makeStrings (maxSlice : Nat) (n : Int) : Option (List (List Nat)) :=
  if n < 0 ∨ (maxSlice : Int) < n then none else some (List.replicate n.toNat [])

/-- The largest length that `make([]string, n)` accepts on a 64-bit platform: the
run time allocates at most `2^48` bytes at once and a string value takes 16 bytes. -/
def maxSlice64 : Nat := 2 ^ 48 / 16

/-- Function `main` after `flag.Parse()`.  `levelOk` is `logrus.ParseLevel`, which
is not part of this repository: whether it accepts the string.  `maxSlice` is the
largest length that `make([]string, n)` accepts, a constant of the Go run time
(`maxSlice64` on a 64-bit platform).  The log goes to standard error and is left
out.  `os.Exit(1)` ends the run with code 1; returning from `main` ends it with
code 0; a panic (`Run.panicked`) ends it with Go's exit status 2, nothing having
been printed. -/
def main (T : UnicodeTables) (levelOk : List Nat → Bool) (maxSlice : Nat) (fuel : Nat)
    (cfg : Config) (g : Rand) : Run MainResult :=
  if !levelOk cfg.logLevel then Run.done ⟨1, [], 0⟩
  else if cfg.length ≤ 0 then Run.done ⟨1, [], 0⟩
  else if cfg.count ≤ 0 then Run.done ⟨1, [], 0⟩
  else if !cfg.useDigits && !cfg.useLetters && !cfg.useSpecials then Run.done ⟨1, [], 0⟩
  else
    let charSet := buildCharSet cfg.useDigits cfg.useLetters cfg.useSpecials cfg.exclude
    if charSet.length = 0 then Run.done ⟨1, [], 0⟩
    else
      match makeStrings maxSlice cfg.count with
      | none => Run.panicked
      | some passwords =>
        match genLoop T fuel cfg.length charSet cfg.count.toNat 0 ⟨passwords, g, 0⟩ with
        | Run.done st => Run.done ⟨0, st.passwords.filter (fun p => p ≠ []), st.skipped⟩
        | Run.panicked => Run.panicked
        | Run.diverge => Run.diverge

/-- The passwords of `n` successive slots, the first one drawn from position `pos` of
the source: each slot takes the next `len` draws. -/
def slots (charSet : List Nat) (src : Nat → Nat) (len : Nat) : Nat → Nat → List (List Nat)
  | _, 0 => []
  | pos, n + 1 => picks charSet src pos len :: slots charSet src len (pos + len) n

/-- A log-level parser for the examples: it accepts exactly "error". -/
def onlyError (lvl : List Nat) : Bool := lvl == bytes "error"

/-! ## Decoding ASCII -/

theorem decode_ascii (b : Nat) (rest : List Nat) (hb : b < 0x80) :
    DecodeRuneInString (b :: rest) = ((b : Int), 1) := by
  simp [DecodeRuneInString, hb]

theorem first_lo (s0 sz lo hi : Nat) (h : first s0 = some (sz, lo, hi)) : 0x80 ≤ lo := by
  unfold first at h
  split_ifs at h <;> simp at h <;> omega

/-- The bytes after the first one that a decoded rune covers are not ASCII. -/
theorem decode_covered_ge (s0 : Nat) (rest : List Nat) :
    ∀ x ∈ rest.take ((DecodeRuneInString (s0 :: rest)).2 - 1), 0x80 ≤ x := by
  rw [DecodeRuneInString]
  split
  · simp
  · split
    · simp
    · rename_i sz lo hi hf
      have hlo := first_lo _ _ _ _ hf
      split
      · simp
      · rename_i s1 rest1
        split
        · simp
        · split
          · simp; omega
          · split
            · simp
            · rename_i s2 rest2
              split
              · simp
              · split
                · simp [List.take_succ_cons]; omega
                · split
                  · simp
                  · split
                    · simp
                    · simp [List.take_succ_cons]; omega

/-- An ASCII byte of `s` is one of the runes that `range s` visits. -/
theorem mem_rangeRunesAux_of_ascii (b : Nat) (hb : b < 0x80) :
    ∀ (s : List Nat) (skip : Nat), b ∈ s → (∀ x ∈ s.take skip, 0x80 ≤ x) →
      (b : Int) ∈ rangeRunesAux skip s := by
  intro s
  induction s with
  | nil => intro skip h; simp at h
  | cons c rest ih =>
    intro skip hmem hskip
    cases skip with
    | succ k =>
      rw [rangeRunesAux]
      have hc : 0x80 ≤ c := hskip c (by simp)
      have hbc : b ≠ c := by omega
      have hmem1 : b ∈ rest := by
        rcases List.mem_cons.1 hmem with h | h
        · exact absurd h hbc
        · exact h
      refine ih k hmem1 ?_
      intro x hx
      exact hskip x (by simp [List.take_succ_cons, hx])
    | zero =>
      rw [rangeRunesAux]
      rcases List.mem_cons.1 hmem with h | h
      · subst h
        rw [decode_ascii b rest hb]
        simp
      · exact List.mem_cons_of_mem _ (ih _ h (decode_covered_ge c rest))

theorem mem_rangeRunes_of_ascii (b : Nat) (hb : b < 0x80) (s : List Nat) (h : b ∈ s) :
    (b : Int) ∈ rangeRunes s :=
  mem_rangeRunesAux_of_ascii b hb s 0 h (by simp)

/-- On an ASCII string `range` visits the bytes themselves. -/
theorem rangeRunes_ascii (s : List Nat) (h : ∀ b ∈ s, b < 0x80) :
    rangeRunes s = List.map (fun (b : Nat) => (b : Int)) s := by
  unfold rangeRunes
  induction s with
  | nil => simp [rangeRunesAux]
  | cons c rest ih =>
    have hc : c < 0x80 := h c (by simp)
    rw [rangeRunesAux, decode_ascii c rest hc]
    simp only [Nat.sub_self, List.map_cons]
    rw [ih (fun b hb => h b (List.mem_cons_of_mem _ hb))]

theorem encodeRune_ascii (b : Nat) (hb : b < 0x80) : encodeRune (b : Int) = [b] := by
  unfold encodeRune
  have h1 : (0 : Int) ≤ (b : Int) ∧ (b : Int) ≤ 0x7F := by omega
  simp [h1]

theorem containsRune_ascii (s : List Nat) (b : Nat) (hb : b < 0x80) :
    ContainsRune s (b : Int) = s.contains b := by
  unfold ContainsRune
  have h1 : (0 : Int) ≤ (b : Int) ∧ (b : Int) < 0x80 := by omega
  simp [h1]

/-- On an ASCII string, `strings.Map` with the callback of `buildCharSet` keeps
exactly the bytes that do not occur in `exclude`, in their order. -/
theorem map_excludeMapping_ascii (exclude s : List Nat) (h : ∀ b ∈ s, b < 0x80) :
    Map (excludeMapping exclude) s = s.filter (fun b => !exclude.contains b) := by
  unfold Map
  rw [rangeRunes_ascii s h]
  induction s with
  | nil => simp
  | cons c rest ih =>
    have hc : c < 0x80 := h c (by simp)
    have ih1 := ih (fun b hb => h b (List.mem_cons_of_mem _ hb))
    simp only [List.map_cons, List.flatten_cons, List.map_map] at ih1 ⊢
    rw [ih1]
    unfold excludeMapping
    rw [containsRune_ascii exclude c hc]
    by_cases hx : c ∈ exclude
    · simp [hx, List.filter_cons]
    · have : (0 : Int) ≤ (c : Int) := by omega
      simp [hx, List.filter_cons, encodeRune_ascii c hc]

/-! ## Searching an ASCII string -/

theorem contains_head_mem (x : Nat) (t : List Nat) :
    ∀ s : List Nat, Contains s (x :: t) = true → x ∈ s := by
  intro s
  induction s with
  | nil => simp [Contains]
  | cons b rest ih =>
    intro h
    rw [Contains, Bool.or_eq_true] at h
    rcases h with h | h
    · simp [List.isPrefixOf] at h
      simp [h.1]
    · exact List.mem_cons_of_mem _ (ih h)

theorem encodeRune_head_ge (r : Int) (hr : ¬ (0 ≤ r ∧ r < 0x80)) :
    ∃ x t, encodeRune r = x :: t ∧ 0x80 ≤ x := by
  unfold encodeRune
  split_ifs with h1 h2 h3 h4
  · omega
  · exact ⟨_, _, rfl, by omega⟩
  · exact ⟨_, _, rfl, by omega⟩
  · exact ⟨_, _, rfl, by omega⟩
  · exact ⟨_, _, rfl, by omega⟩

/-- A rune found by `strings.ContainsRune` in an ASCII string is one of its bytes. -/
theorem containsRune_ascii_set (K : List Nat) (hK : ∀ c ∈ K, c < 0x80) (r : Int)
    (h : ContainsRune K r = true) : 0 ≤ r ∧ r < 0x80 ∧ r.toNat ∈ K := by
  unfold ContainsRune at h
  split_ifs at h with h1 h2 h3
  · exact ⟨h1.1, h1.2, by simpa using h⟩
  · rw [rangeRunes_ascii K hK] at h
    simp only [List.contains_eq_any_beq, List.any_eq_true, List.mem_map] at h
    obtain ⟨x, ⟨b, hb, rfl⟩, hx⟩ := h
    have := hK b hb
    simp [RuneError] at hx
    omega
  · obtain ⟨x, t, hx, hge⟩ := encodeRune_head_ge r h1
    rw [hx] at h
    have := hK x (contains_head_mem x t K h)
    omega

/-- When `strings.ContainsAny` finds a character of an ASCII set `K` in `s`, that
character is one of the runes that `range s` visits. -/
theorem containsAny_ascii_set (s K : List Nat) (hK : ∀ c ∈ K, c < 0x80)
    (h : ContainsAny s K = true) : ∃ b ∈ K, (b : Int) ∈ rangeRunes s := by
  unfold ContainsAny at h
  split at h
  · simp at h
  · rename_i c
    have hc : c < 0x80 := hK c (by simp)
    have hc1 : ¬ (0x80 ≤ c) := by omega
    rw [if_neg hc1, containsRune_ascii s c hc] at h
    exact ⟨c, by simp, mem_rangeRunes_of_ascii c hc s (by simpa using h)⟩
  · split_ifs at h with h1
    · simp only [List.any_eq_true] at h
      obtain ⟨b, hbs, hbK⟩ := h
      have hbK1 : b ∈ K := by simpa using hbK
      exact ⟨b, hbK1, mem_rangeRunes_of_ascii b (hK b hbK1) s hbs⟩
    · simp only [List.any_eq_true] at h
      obtain ⟨r, hr, hrK⟩ := h
      obtain ⟨h0, h1, hmem⟩ := containsRune_ascii_set K hK r hrK
      refine ⟨r.toNat, hmem, ?_⟩
      rw [Int.toNat_of_nonneg h0]
      exact hr

/-! ## The three class constants -/

theorem digits_range : ∀ b ∈ digits, 0x30 ≤ b ∧ b ≤ 0x39 := by decide

theorem letters_range : ∀ b ∈ letters, (0x41 ≤ b ∧ b ≤ 0x5A) ∨ (0x61 ≤ b ∧ b ≤ 0x7A) := by
  decide

theorem specials_range : ∀ b ∈ specials,
    b < 0x80 ∧ ¬ (0x30 ≤ b ∧ b ≤ 0x39) ∧ ¬ (0x41 ≤ b ∧ b ≤ 0x5A) ∧ ¬ (0x61 ≤ b ∧ b ≤ 0x7A) := by
  decide

theorem digits_ascii : ∀ b ∈ digits, b < 0x80 := fun b hb => by
  have := digits_range b hb; omega

theorem letters_ascii : ∀ b ∈ letters, b < 0x80 := fun b hb => by
  have := letters_range b hb; omega

theorem specials_ascii : ∀ b ∈ specials, b < 0x80 := fun b hb => (specials_range b hb).1

theorem isDigit_of_mem_digits (T : UnicodeTables) (b : Nat) (hb : b ∈ digits) :
    IsDigit T (b : Int) = true := by
  have := digits_range b hb
  unfold IsDigit
  have h1 : (b : Int) ≤ 0xFF := by omega
  have h2 : (0x30 : Int) ≤ (b : Int) ∧ (b : Int) ≤ 0x39 := by omega
  simp [h1, h2]

theorem isLetter_of_mem_letters (T : UnicodeTables) (b : Nat) (hb : b ∈ letters) :
    IsDigit T (b : Int) = false ∧ IsLetter T (b : Int) = true := by
  have := letters_range b hb
  unfold IsDigit IsLetter
  have h1 : (b : Int) ≤ 0xFF := by omega
  have h0 : (0 : Int) ≤ (b : Int) := by omega
  have h2 : ¬ ((0x30 : Int) ≤ (b : Int) ∧ (b : Int) ≤ 0x39) := by omega
  have h3 : ((0x41 : Int) ≤ (b : Int) ∧ (b : Int) ≤ 0x5A) ∨
      ((0x61 : Int) ≤ (b : Int) ∧ (b : Int) ≤ 0x7A) := by omega
  constructor
  · simp only [h1, if_true, decide_eq_false_iff_not]; exact h2
  · rw [if_pos ⟨h0, h1⟩, decide_eq_true_eq]
    rcases h3 with h | h
    · exact Or.inl h
    · exact Or.inr (Or.inl h)

theorem isSpecial_of_mem_specials (T : UnicodeTables) (b : Nat) (hb : b ∈ specials) :
    IsDigit T (b : Int) = false ∧ IsLetter T (b : Int) = false ∧
      ContainsRune specials (b : Int) = true := by
  obtain ⟨ha, hd, hu, hl⟩ := specials_range b hb
  unfold IsDigit IsLetter
  have h1 : (b : Int) ≤ 0xFF := by omega
  have h0 : (0 : Int) ≤ (b : Int) := by omega
  refine ⟨?_, ?_, ?_⟩
  · simp only [h1, if_true, decide_eq_false_iff_not]; omega
  · rw [if_pos ⟨h0, h1⟩, decide_eq_false_iff_not]; omega
  · rw [containsRune_ascii specials b ha]; simpa using hb

/-! ## The flags of `isPasswordValid` -/

theorem validStep_mono (T : UnicodeTables) (f : Flags) (r : Int) :
    (f.hasDigit = true → (validStep T f r).hasDigit = true) ∧
    (f.hasLetter = true → (validStep T f r).hasLetter = true) ∧
    (f.hasSpecial = true → (validStep T f r).hasSpecial = true) := by
  unfold validStep
  split_ifs <;> simp

theorem validFold_mono (T : UnicodeTables) (l : List Int) :
    ∀ f : Flags,
      (f.hasDigit = true → (l.foldl (validStep T) f).hasDigit = true) ∧
      (f.hasLetter = true → (l.foldl (validStep T) f).hasLetter = true) ∧
      (f.hasSpecial = true → (l.foldl (validStep T) f).hasSpecial = true) := by
  induction l with
  | nil => intro f; simp
  | cons r rest ih =>
    intro f
    obtain ⟨a, b, c⟩ := validStep_mono T f r
    obtain ⟨a1, b1, c1⟩ := ih (validStep T f r)
    exact ⟨fun h => a1 (a h), fun h => b1 (b h), fun h => c1 (c h)⟩

theorem hasDigit_of_mem (T : UnicodeTables) (r : Int) (hr : IsDigit T r = true) (l : List Int) :
    ∀ f : Flags, r ∈ l → (l.foldl (validStep T) f).hasDigit = true := by
  induction l with
  | nil => intro f h; simp at h
  | cons c rest ih =>
    intro f h
    rcases List.mem_cons.1 h with h | h
    · subst h
      refine (validFold_mono T rest _).1 ?_
      simp [validStep, hr]
    · exact ih _ h

theorem hasLetter_of_mem (T : UnicodeTables) (r : Int) (hd : IsDigit T r = false)
    (hr : IsLetter T r = true) (l : List Int) :
    ∀ f : Flags, r ∈ l → (l.foldl (validStep T) f).hasLetter = true := by
  induction l with
  | nil => intro f h; simp at h
  | cons c rest ih =>
    intro f h
    rcases List.mem_cons.1 h with h | h
    · subst h
      refine (validFold_mono T rest _).2.1 ?_
      simp [validStep, hr, hd]
    · exact ih _ h

theorem hasSpecial_of_mem (T : UnicodeTables) (r : Int) (hd : IsDigit T r = false)
    (hl : IsLetter T r = false) (hr : ContainsRune specials r = true) (l : List Int) :
    ∀ f : Flags, r ∈ l → (l.foldl (validStep T) f).hasSpecial = true := by
  induction l with
  | nil => intro f h; simp at h
  | cons c rest ih =>
    intro f h
    rcases List.mem_cons.1 h with h | h
    · subst h
      refine (validFold_mono T rest _).2.2 ?_
      simp [validStep, hr, hd, hl]
    · exact ih _ h

/-- The check of `isPasswordValid` holds for every string: a character of a class
constant that occurs in the password sets the flag of that class. -/
theorem isPasswordValid_eq_true (T : UnicodeTables) (password : List Nat) :
    isPasswordValid T password = true := by
  unfold isPasswordValid
  simp only [Bool.and_eq_true, Bool.or_eq_true, Bool.not_eq_true']
  refine ⟨⟨?_, ?_⟩, ?_⟩
  · by_cases h : ContainsAny password digits = true
    · obtain ⟨b, hb, hmem⟩ := containsAny_ascii_set password digits digits_ascii h
      exact Or.inl (hasDigit_of_mem T _ (isDigit_of_mem_digits T b hb) _ _ hmem)
    · exact Or.inr (by simpa using h)
  · by_cases h : ContainsAny password letters = true
    · obtain ⟨b, hb, hmem⟩ := containsAny_ascii_set password letters letters_ascii h
      obtain ⟨h1, h2⟩ := isLetter_of_mem_letters T b hb
      exact Or.inl (hasLetter_of_mem T _ h1 h2 _ _ hmem)
    · exact Or.inr (by simpa using h)
  · by_cases h : ContainsAny password specials = true
    · obtain ⟨b, hb, hmem⟩ := containsAny_ascii_set password specials specials_ascii h
      obtain ⟨h1, h2, h3⟩ := isSpecial_of_mem_specials T b hb
      exact Or.inl (hasSpecial_of_mem T _ h1 h2 h3 _ _ hmem)
    · exact Or.inr (by simpa using h)

/-! ## Runes decoded from a non-ASCII byte -/

theorem first_cases (s0 sz lo hi : Nat) (h : first s0 = some (sz, lo, hi)) :
    (sz = 2 ∧ 0xC2 ≤ s0 ∧ s0 ≤ 0xDF ∧ 0x80 ≤ lo) ∨
    (sz = 3 ∧ s0 = 0xE0 ∧ lo = 0xA0 ∧ hi = 0xBF) ∨
    (sz = 3 ∧ 0xE1 ≤ s0 ∧ s0 ≤ 0xEF ∧ 0x80 ≤ lo) ∨
    (sz = 4 ∧ s0 = 0xF0 ∧ lo = 0x90 ∧ hi = 0xBF) ∨
    (sz = 4 ∧ 0xF1 ≤ s0 ∧ s0 ≤ 0xF4 ∧ 0x80 ≤ lo) := by
  unfold first at h
  split_ifs at h <;> simp at h <;> omega

/-- A rune decoded from a string that starts with a non-ASCII byte is not ASCII. -/
theorem decode_nonascii_ge (s0 : Nat) (rest : List Nat) (h0 : ¬ s0 < 0x80) :
    0x80 ≤ (DecodeRuneInString (s0 :: rest)).1 := by
  rw [DecodeRuneInString]
  split
  · omega
  · split
    · simp [RuneError]
    · rename_i sz lo hi hf
      have hc := first_cases _ _ _ _ hf
      split
      · simp [RuneError]
      · rename_i s1 rest1
        split
        · simp [RuneError]
        · split
          · simp only []; omega
          · split
            · simp [RuneError]
            · rename_i s2 rest2
              split
              · simp [RuneError]
              · split
                · simp only []; omega
                · split
                  · simp [RuneError]
                  · split
                    · simp [RuneError]
                    · simp only []; omega

/-- An ASCII rune that `range s` visits is a byte of `s`. -/
theorem mem_of_ascii_mem_rangeRunesAux (b : Nat) (hb : b < 0x80) :
    ∀ (s : List Nat) (skip : Nat), (b : Int) ∈ rangeRunesAux skip s → b ∈ s := by
  intro s
  induction s with
  | nil => intro skip h; simp [rangeRunesAux] at h
  | cons c rest ih =>
    intro skip h
    cases skip with
    | succ k =>
      rw [rangeRunesAux] at h
      exact List.mem_cons_of_mem _ (ih k h)
    | zero =>
      rw [rangeRunesAux] at h
      rcases List.mem_cons.1 h with h | h
      · by_cases hc : c < 0x80
        · rw [decode_ascii c rest hc] at h
          have : b = c := by simpa using h
          simp [this]
        · have := decode_nonascii_ge c rest hc
          omega
      · exact List.mem_cons_of_mem _ (ih _ h)

/-- For an ASCII character, occurring in `s` as a byte and as a decoded character
are the same. -/
theorem ascii_mem_rangeRunes_iff (b : Nat) (hb : b < 0x80) (s : List Nat) :
    (b : Int) ∈ rangeRunes s ↔ b ∈ s :=
  ⟨mem_of_ascii_mem_rangeRunesAux b hb s 0, mem_rangeRunes_of_ascii b hb s⟩

/-! ## `buildCharSet` as a filter -/

theorem enabledChars_ascii (d l s : Bool) : ∀ b ∈ enabledChars d l s, b < 0x80 := by
  intro b hb
  unfold enabledChars at hb
  simp only [List.mem_append] at hb
  rcases hb with (hb | hb) | hb
  · cases d
    · simp at hb
    · exact digits_ascii b hb
  · cases l
    · simp at hb
    · exact letters_ascii b hb
  · cases s
    · simp at hb
    · exact specials_ascii b hb

theorem mem_enabledChars (d l s : Bool) (b : Nat) :
    b ∈ enabledChars d l s ↔
      (d = true ∧ b ∈ digits) ∨ (l = true ∧ b ∈ letters) ∨ (s = true ∧ b ∈ specials) := by
  unfold enabledChars
  cases d <;> cases l <;> cases s <;> simp [or_assoc]

/-- Function `buildCharSet` returns the enabled constants, in the order digits,
letters, specials, without the bytes that occur in `exclude`. -/
theorem buildCharSet_eq_filter (d l s : Bool) (exclude : List Nat) :
    buildCharSet d l s exclude =
      (enabledChars d l s).filter (fun b => !exclude.contains b) := by
  have hb : ((if s = true then
      (if l = true then (if d = true then ([] : List Nat) ++ digits else []) ++ letters
        else (if d = true then ([] : List Nat) ++ digits else [])) ++ specials
      else (if l = true then (if d = true then ([] : List Nat) ++ digits else []) ++ letters
        else (if d = true then ([] : List Nat) ++ digits else []))) : List Nat) =
      enabledChars d l s := by
    unfold enabledChars
    cases d <;> cases l <;> cases s <;> simp
  unfold buildCharSet
  simp only [hb]
  by_cases he : enabledChars d l s = []
  · simp [he]
  · rw [if_neg he]
    by_cases hx : exclude = []
    · simp [hx]
    · simp only [ne_eq, hx, not_false_eq_true, if_true]
      exact map_excludeMapping_ascii exclude _ (enabledChars_ascii d l s)

/-! ## `generatePassword` returns its first candidate -/

theorem picks_length (charSet : List Nat) (src : Nat → Nat) :
    ∀ n pos, (picks charSet src pos n).length = n := by
  intro n
  induction n with
  | zero => intro pos; simp [picks]
  | succ n ih => intro pos; simp [picks, ih]

theorem picks_mem (charSet : List Nat) (hc : charSet ≠ []) (src : Nat → Nat) :
    ∀ n pos, ∀ b ∈ picks charSet src pos n, b ∈ charSet := by
  intro n
  induction n with
  | zero => intro pos b hb; simp [picks] at hb
  | succ n ih =>
    intro pos b hb
    rw [picks] at hb
    rcases List.mem_cons.1 hb with h | h
    · have hpos : 0 < charSet.length := List.length_pos.2 hc
      have hlt : src pos % charSet.length < charSet.length := Nat.mod_lt _ hpos
      rw [h, List.getD_eq_getElem _ _ hlt]
      exact List.getElem_mem _
    · exact ih _ b h

theorem intn_length (charSet : List Nat) (hc : charSet ≠ []) (g : Rand) :
    g.Intn (charSet.length : Int) =
      some (((g.src g.pos % charSet.length : Nat) : Int), { g with pos := g.pos + 1 }) := by
  have hpos : 0 < charSet.length := List.length_pos.2 hc
  unfold Rand.Intn
  have : ¬ ((charSet.length : Int) ≤ 0) := by omega
  rw [if_neg this]
  simp

theorem byteAt_mod (charSet : List Nat) (hc : charSet ≠ []) (x : Nat) :
    byteAt charSet ((x % charSet.length : Nat) : Int) =
      some (charSet.getD (x % charSet.length) 0) := by
  have hpos : 0 < charSet.length := List.length_pos.2 hc
  have hlt : x % charSet.length < charSet.length := Nat.mod_lt _ hpos
  unfold byteAt
  have : ¬ (((x % charSet.length : Nat) : Int) < 0) := by omega
  rw [if_neg this, Int.toNat_ofNat, List.getD_eq_getElem _ _ hlt, List.getElem?_eq_getElem hlt]

/-- The loop of `generatePassword` never panics on a non-empty alphabet: it appends
the bytes selected by the next `n` draws. -/
theorem drawLoop_eq (charSet : List Nat) (hc : charSet ≠ []) :
    ∀ (n : Nat) (g : Rand) (password : List Nat),
      drawLoop charSet n g password =
        some (password ++ picks charSet g.src g.pos n, { g with pos := g.pos + n }) := by
  intro n
  induction n with
  | zero => intro g password; simp [drawLoop, picks]
  | succ n ih =>
    intro g password
    rw [drawLoop, intn_length charSet hc g]
    simp only []
    rw [byteAt_mod charSet hc]
    simp only []
    rw [ih]
    simp [picks, Nat.add_assoc, Nat.add_comm 1 n]

/-- On a non-empty alphabet `generatePassword` returns the first candidate, whatever
the fuel. -/
theorem generatePassword_eq (T : UnicodeTables) (fuel : Nat) (length : Int)
    (charSet : List Nat) (g : Rand) (hc : charSet ≠ []) :
    generatePassword T fuel length charSet g =
      Run.done ⟨picks charSet g.src g.pos length.toNat, none,
        { g with pos := g.pos + length.toNat }⟩ := by
  have hlen : ¬ (charSet.length = 0) := by
    simpa [List.length_eq_zero] using hc
  cases fuel <;>
    simp [generatePassword, hlen, drawLoop_eq charSet hc, isPasswordValid_eq_true]

/-- On the empty alphabet `generatePassword` returns the empty string and the error. -/
theorem generatePassword_nil (T : UnicodeTables) (fuel : Nat) (length : Int) (g : Rand) :
    generatePassword T fuel length [] g = Run.done ⟨[], some emptyCharSetError, g⟩ := by
  cases fuel <;> simp [generatePassword]

/-! ## The generation loop of `main` -/

theorem slots_length (charSet : List Nat) (src : Nat → Nat) (len : Nat) :
    ∀ n pos, (slots charSet src len pos n).length = n := by
  intro n
  induction n with
  | zero => intro pos; simp [slots]
  | succ n ih => intro pos; simp [slots, ih]

theorem slots_mem_length (charSet : List Nat) (src : Nat → Nat) (len : Nat) :
    ∀ n pos, ∀ p ∈ slots charSet src len pos n, p.length = len := by
  intro n
  induction n with
  | zero => intro pos p hp; simp [slots] at hp
  | succ n ih =>
    intro pos p hp
    rw [slots] at hp
    rcases List.mem_cons.1 hp with h | h
    · rw [h, picks_length]
    · exact ih _ p h

theorem slots_getElem (charSet : List Nat) (src : Nat → Nat) (len : Nat) :
    ∀ n pos i, i < n →
      (slots charSet src len pos n)[i]? = some (picks charSet src (pos + i * len) len) := by
  intro n
  induction n with
  | zero => intro pos i hi; omega
  | succ n ih =>
    intro pos i hi
    rw [slots]
    cases i with
    | zero => simp
    | succ j =>
      rw [List.getElem?_cons_succ, ih (pos + len) j (by omega)]
      congr 2
      rw [Nat.succ_mul]
      omega

/-- On a non-empty alphabet the loop of `main` fills the `n` slots from `i` on, one
after the other, never skips one, and neither panics nor diverges. -/
theorem genLoop_eq (T : UnicodeTables) (fuel : Nat) (length : Int) (charSet : List Nat)
    (hc : charSet ≠ []) :
    ∀ (n i : Nat) (pre : List (List Nat)) (g : Rand) (k : Nat), pre.length = i →
      genLoop T fuel length charSet n i ⟨pre ++ List.replicate n [], g, k⟩ =
        Run.done ⟨pre ++ slots charSet g.src length.toNat g.pos n,
          { g with pos := g.pos + n * length.toNat }, k⟩ := by
  intro n
  induction n with
  | zero => intro i pre g k _; simp [genLoop, slots]
  | succ n ih =>
    intro i pre g k hi
    rw [genLoop]
    simp only [generatePassword_eq T fuel length charSet g hc]
    have hset : (pre ++ List.replicate (n + 1) ([] : List Nat)).set i
        (picks charSet g.src g.pos length.toNat) =
        (pre ++ [picks charSet g.src g.pos length.toNat]) ++ List.replicate n [] := by
      rw [List.replicate_succ, ← hi]
      simp
    rw [hset, ih (i + 1) _ _ k (by simp [hi])]
    simp [slots, Nat.succ_mul, Nat.add_assoc, Nat.add_comm length.toNat]

/-- The loop of `main` never takes the branch that skips a slot, whatever the state
it starts from: on a non-empty alphabet it returns with the count of skipped slots
unchanged. -/
theorem genLoop_skipped (T : UnicodeTables) (fuel : Nat) (length : Int) (charSet : List Nat)
    (hc : charSet ≠ []) :
    ∀ (n i : Nat) (st : LoopState),
      ∃ st1, genLoop T fuel length charSet n i st = Run.done st1 ∧
        st1.skipped = st.skipped := by
  intro n
  induction n with
  | zero => intro i st; exact ⟨st, by simp [genLoop], rfl⟩
  | succ n ih =>
    intro i st
    rw [genLoop]
    simp only [generatePassword_eq T fuel length charSet st.rng hc]
    exact ih (i + 1) _

theorem makeStrings_ok (maxSlice : Nat) (n : Int) (h0 : 0 ≤ n) (hmax : n ≤ (maxSlice : Int)) :
    makeStrings maxSlice n = some (List.replicate n.toNat []) := by
  unfold makeStrings
  have : ¬ (n < 0 ∨ (maxSlice : Int) < n) := by omega
  rw [if_neg this]

theorem makeStrings_panic (maxSlice : Nat) (n : Int) (hmax : (maxSlice : Int) < n) :
    makeStrings maxSlice n = none := by
  unfold makeStrings
  rw [if_pos (Or.inr hmax)]

/-- A configuration that passes every check of `main`, with a count that `make`
accepts, gives exit code 0, one line for each slot, and no skipped slot. -/
theorem main_ok (T : UnicodeTables) (levelOk : List Nat → Bool) (maxSlice : Nat) (fuel : Nat)
    (cfg : Config)
    (g : Rand) (hlvl : levelOk cfg.logLevel = true) (hlen : 0 < cfg.length)
    (hcount : 0 < cfg.count)
    (hcls : cfg.useDigits = true ∨ cfg.useLetters = true ∨ cfg.useSpecials = true)
    (hne : buildCharSet cfg.useDigits cfg.useLetters cfg.useSpecials cfg.exclude ≠ [])
    (hmax : cfg.count ≤ (maxSlice : Int)) :
    main T levelOk maxSlice fuel cfg g =
      Run.done ⟨0, slots (buildCharSet cfg.useDigits cfg.useLetters cfg.useSpecials cfg.exclude)
        g.src cfg.length.toNat g.pos cfg.count.toNat, 0⟩ := by
  have h1 : ¬ cfg.length ≤ 0 := by omega
  have h2 : ¬ cfg.count ≤ 0 := by omega
  have h3 : (!cfg.useDigits && !cfg.useLetters && !cfg.useSpecials) = false := by
    rcases hcls with h | h | h <;> simp [h]
  have h4 : ¬ (buildCharSet cfg.useDigits cfg.useLetters cfg.useSpecials cfg.exclude).length
      = 0 := by
    simpa [List.length_eq_zero] using hne
  have hloop := genLoop_eq T fuel cfg.length _ hne cfg.count.toNat 0 [] g 0 rfl
  simp only [List.nil_append] at hloop
  unfold main
  simp only [hlvl, h1, h2, h3, h4, Bool.not_true, Bool.false_eq_true, if_false,
    makeStrings_ok maxSlice cfg.count (by omega) hmax, hloop]
  congr 2
  rw [List.filter_eq_self]
  intro p hp
  have hlp := slots_mem_length _ _ _ _ _ p hp
  have : p ≠ [] := by
    intro h
    rw [h] at hlp
    simp at hlp
    omega
  simpa using this

/-- A configuration that passes every check of `main`, with a count that `make` does
not accept, makes `main` panic on line 76, before the generation loop. -/
theorem main_panics (T : UnicodeTables) (levelOk : List Nat → Bool) (maxSlice : Nat)
    (fuel : Nat) (cfg : Config)
    (g : Rand) (hlvl : levelOk cfg.logLevel = true) (hlen : 0 < cfg.length)
    (hcount : 0 < cfg.count)
    (hcls : cfg.useDigits = true ∨ cfg.useLetters = true ∨ cfg.useSpecials = true)
    (hne : buildCharSet cfg.useDigits cfg.useLetters cfg.useSpecials cfg.exclude ≠ [])
    (hmax : (maxSlice : Int) < cfg.count) :
    main T levelOk maxSlice fuel cfg g = Run.panicked := by
  have h1 : ¬ cfg.length ≤ 0 := by omega
  have h2 : ¬ cfg.count ≤ 0 := by omega
  have h3 : (!cfg.useDigits && !cfg.useLetters && !cfg.useSpecials) = false := by
    rcases hcls with h | h | h <;> simp [h]
  have h4 : ¬ (buildCharSet cfg.useDigits cfg.useLetters cfg.useSpecials cfg.exclude).length
      = 0 := by
    simpa [List.length_eq_zero] using hne
  unfold main
  simp only [hlvl, h1, h2, h3, h4, Bool.not_true, Bool.false_eq_true, if_false,
    makeStrings_panic maxSlice cfg.count hmax]

/-- A configuration that fails a check of `main` gives exit code 1 and no output. -/
theorem main_fatal (T : UnicodeTables) (levelOk : List Nat → Bool) (maxSlice : Nat)
    (fuel : Nat) (cfg : Config) (g : Rand)
    (h : levelOk cfg.logLevel = false ∨ cfg.length ≤ 0 ∨ cfg.count ≤ 0 ∨
      (cfg.useDigits = false ∧ cfg.useLetters = false ∧ cfg.useSpecials = false) ∨
      buildCharSet cfg.useDigits cfg.useLetters cfg.useSpecials cfg.exclude = []) :
    main T levelOk maxSlice fuel cfg g = Run.done ⟨1, [], 0⟩ := by
  unfold main
  by_cases h0 : levelOk cfg.logLevel = true
  · by_cases h1 : cfg.length ≤ 0
    · simp [h0, h1]
    · by_cases h2 : cfg.count ≤ 0
      · simp [h0, h1, h2]
      · by_cases h3 : (!cfg.useDigits && !cfg.useLetters && !cfg.useSpecials) = true
        · simp only [h0, h1, h2, h3, Bool.not_true, Bool.false_eq_true, if_false, if_true]
        · have h4 : buildCharSet cfg.useDigits cfg.useLetters cfg.useSpecials cfg.exclude
              = [] := by
            rcases h with h | h | h | h | h
            · rw [h0] at h; exact absurd h (by simp)
            · exact absurd h h1
            · exact absurd h h2
            · exact absurd (by simp [h.1, h.2.1, h.2.2]) h3
            · exact h
          simp only [h0, h1, h2, h3, h4, Bool.not_true, Bool.false_eq_true, if_false,
            List.length_nil, if_true]
  · have h0f : levelOk cfg.logLevel = false := by simpa using h0
    simp [h0f]

/-- The logger has no influence on the alphabet: `buildCharSetLog` returns the
alphabet of `buildCharSet`. -/
theorem buildCharSetLog_fst (d l s : Bool) (exclude : List Nat) (lg : Logger) :
    (buildCharSetLog d l s exclude lg).1 = buildCharSet d l s exclude := by
  unfold buildCharSetLog buildCharSet
  cases d <;> cases l <;> cases s <;>
    simp only [Bool.false_eq_true, if_false, if_true] <;>
    split_ifs <;> rfl

/-! ## Further facts for the claims -/

/-- A character of a class constant that `strings.ContainsAny` finds in the password
sets the flag of its class in the loop of `isPasswordValid`. -/
theorem validFlags_of_containsAny (T : UnicodeTables) (password : List Nat) :
    (ContainsAny password digits = true → (validFlags T password).hasDigit = true) ∧
    (ContainsAny password letters = true → (validFlags T password).hasLetter = true) ∧
    (ContainsAny password specials = true → (validFlags T password).hasSpecial = true) := by
  refine ⟨fun h => ?_, fun h => ?_, fun h => ?_⟩
  · obtain ⟨b, hb, hmem⟩ := containsAny_ascii_set password digits digits_ascii h
    exact hasDigit_of_mem T _ (isDigit_of_mem_digits T b hb) _ _ hmem
  · obtain ⟨b, hb, hmem⟩ := containsAny_ascii_set password letters letters_ascii h
    obtain ⟨h1, h2⟩ := isLetter_of_mem_letters T b hb
    exact hasLetter_of_mem T _ h1 h2 _ _ hmem
  · obtain ⟨b, hb, hmem⟩ := containsAny_ascii_set password specials specials_ascii h
    obtain ⟨h1, h2, h3⟩ := isSpecial_of_mem_specials T b hb
    exact hasSpecial_of_mem T _ h1 h2 h3 _ _ hmem

theorem picks_getElem (charSet : List Nat) (src : Nat → Nat) :
    ∀ n pos k, k < n →
      (picks charSet src pos n)[k]? =
        some (charSet.getD (src (pos + k) % charSet.length) 0) := by
  intro n
  induction n with
  | zero => intro pos k hk; omega
  | succ n ih =>
    intro pos k hk
    rw [picks]
    cases k with
    | zero => simp
    | succ j =>
      rw [List.getElem?_cons_succ, ih (pos + 1) j (by omega)]
      congr 4
      omega

theorem picks_zero (charSet : List Nat) (src : Nat → Nat) (pos : Nat) :
    picks charSet src pos 0 = [] := by
  simp [picks]

set_option maxRecDepth 100000 in
theorem constants_nodup : (digits ++ letters ++ specials).Nodup := by decide

theorem enabledChars_sublist (d l s : Bool) :
    (enabledChars d l s).Sublist (digits ++ letters ++ specials) := by
  unfold enabledChars
  refine List.Sublist.append (List.Sublist.append ?_ ?_) ?_
  · cases d <;> simp
  · cases l <;> simp
  · cases s <;> simp

theorem enabledChars_nodup (d l s : Bool) : (enabledChars d l s).Nodup :=
  List.Nodup.sublist (enabledChars_sublist d l s) constants_nodup

theorem enabledChars_length (d l s : Bool) :
    (enabledChars d l s).length = 10 * d.toNat + 52 * l.toNat + 12 * s.toNat := by
  cases d <;> cases l <;> cases s <;> decide

/-- The enabled characters that occur in `exclude`, counted. -/
theorem card_inter_eq (d l s : Bool) (exclude : List Nat) :
    ((enabledChars d l s).toFinset ∩ exclude.toFinset).card =
      ((enabledChars d l s).filter (fun b => exclude.contains b)).length := by
  have hn : ((enabledChars d l s).filter (fun b => exclude.contains b)).Nodup :=
    List.Nodup.filter _ (enabledChars_nodup d l s)
  rw [← List.toFinset_card_of_nodup hn]
  congr 1
  ext x
  simp

theorem filter_length_split (l : List Nat) (p : Nat → Bool) :
    (l.filter (fun b => !p b)).length + (l.filter p).length = l.length := by
  induction l with
  | nil => simp
  | cons a t ih =>
    by_cases h : p a = true
    · simp [List.filter_cons, h]; omega
    · simp only [Bool.not_eq_true] at h
      simp [List.filter_cons, h]; omega

/-! ## The claims of the specification -/

/-- C1 (class coverage), at a failing input.  With all three classes enabled, no
exclusion and length 10, the draws 10, 11, ..., 19 make `generatePassword` return
"abcdefghij" with no error: a password without a digit and without a special
character, although both classes are live in the alphabet. -/
theorem generatePassword_misses_live_classes (T : UnicodeTables) (fuel : Nat) :
    generatePassword T fuel 10 (buildCharSet true true true []) ⟨fun k => 10 + k, 0⟩ =
        Run.done ⟨bytes "abcdefghij", none, ⟨fun k => 10 + k, 10⟩⟩ ∧
      live CharacterClass.Digit (buildCharSet true true true []) = true ∧
      represented CharacterClass.Digit (bytes "abcdefghij") = false ∧
      live CharacterClass.Special (buildCharSet true true true []) = true ∧
      represented CharacterClass.Special (bytes "abcdefghij") = false := by
  refine ⟨?_, by decide, by decide, by decide, by decide⟩
  rw [generatePassword_eq T fuel 10 _ _ (by decide)]
  rfl

/-- C2 (validity rule), at a failing input.  The password "a" is drawn from the
alphabet "a1", in which the digit class is live; the rule of the specification
rejects it, and `isPasswordValid` accepts it. -/
theorem isPasswordValid_accepts_uncovered (T : UnicodeTables) :
    (∀ b ∈ bytes "a", b ∈ bytes "a1") ∧
      validityRule (bytes "a1") (bytes "a") = false ∧
      isPasswordValid T (bytes "a") = true :=
  ⟨by decide, by decide, isPasswordValid_eq_true T _⟩

/-- C3 (exclusion correctness).  A character of the alphabet that `buildCharSet`
returns occurs in the exclusion string neither as a byte nor as a decoded character,
and every character of an enabled class that does not occur in the exclusion string
(as a byte, or as a decoded character) is in the alphabet. -/
theorem buildCharSet_exclusion (useDigits useLetters useSpecials : Bool)
    (exclude : List Nat) (b : Nat) :
    (b ∈ buildCharSet useDigits useLetters useSpecials exclude →
        b ∉ exclude ∧ (b : Int) ∉ rangeRunes exclude) ∧
      (((useDigits = true ∧ b ∈ digits) ∨ (useLetters = true ∧ b ∈ letters) ∨
          (useSpecials = true ∧ b ∈ specials)) →
        (b ∉ exclude ∨ (b : Int) ∉ rangeRunes exclude) →
        b ∈ buildCharSet useDigits useLetters useSpecials exclude) := by
  rw [buildCharSet_eq_filter]
  constructor
  · intro h
    rw [List.mem_filter] at h
    have hb := enabledChars_ascii _ _ _ b h.1
    have hx : b ∉ exclude := by simpa using h.2
    exact ⟨hx, fun hr => hx ((ascii_mem_rangeRunes_iff b hb exclude).1 hr)⟩
  · intro hen hx
    have hmem := (mem_enabledChars useDigits useLetters useSpecials b).2 hen
    have hb := enabledChars_ascii _ _ _ b hmem
    have hx1 : b ∉ exclude := by
      rcases hx with hx | hx
      · exact hx
      · exact fun hm => hx ((ascii_mem_rangeRunes_iff b hb exclude).2 hm)
    rw [List.mem_filter]
    exact ⟨hmem, by simpa using hx1⟩

/-- C4 as stated fails: with only digits enabled and the exclusion string "13",
`buildCharSet` does not return "025789". -/
theorem buildCharSet_digits_13_ne :
    buildCharSet true false false (bytes "13") ≠ bytes "025789" := by decide

/-- C4, amended: with only digits enabled and the exclusion string "13",
`buildCharSet` returns "02456789", the digits without "1" and "3". -/
theorem buildCharSet_digits_13 :
    buildCharSet true false false (bytes "13") = bytes "02456789" := by decide

/-- C5 (length).  For a non-empty alphabet and a positive length, whatever the random
source and the fuel, `generatePassword` returns without error a password of exactly
`length` bytes. -/
theorem generatePassword_length (T : UnicodeTables) (fuel : Nat) (length : Int)
    (charSet : List Nat) (g : Rand) (hc : charSet ≠ []) (hl : 0 < length) :
    ∃ r, generatePassword T fuel length charSet g = Run.done r ∧ r.err = none ∧
      (r.password.length : Int) = length := by
  refine ⟨_, generatePassword_eq T fuel length charSet g hc, rfl, ?_⟩
  simp only [picks_length]
  omega

/-- C5 at a concrete input: length 3, alphabet "aA1". -/
theorem generatePassword_length_witness :
    bytes "aA1" ≠ [] ∧ (0 : Int) < 3 ∧
      ∃ r, generatePassword noTables 0 3 (bytes "aA1") ⟨fun k => k, 0⟩ = Run.done r ∧
        r.err = none ∧ (r.password.length : Int) = 3 :=
  ⟨by decide, by decide,
    generatePassword_length noTables 0 3 (bytes "aA1") ⟨fun k => k, 0⟩ (by decide) (by decide)⟩

/-- C6 (alphabet containment).  For a non-empty alphabet, whatever the length, the
random source and the fuel, `generatePassword` returns without error a password whose
bytes are all bytes of the alphabet; and `generatePassword(8, "0123456789")` returns
8 bytes that are all digits. -/
theorem generatePassword_subset (T : UnicodeTables) (fuel : Nat) (length : Int)
    (charSet : List Nat) (g : Rand) (hc : charSet ≠ []) :
    (∃ r, generatePassword T fuel length charSet g = Run.done r ∧ r.err = none ∧
        ∀ b ∈ r.password, b ∈ charSet) ∧
      (∃ r, generatePassword T fuel 8 digits g = Run.done r ∧ r.err = none ∧
        r.password.length = 8 ∧ ∀ b ∈ r.password, b ∈ digits) := by
  have hd : digits ≠ [] := by decide
  refine ⟨⟨_, generatePassword_eq T fuel length charSet g hc, rfl, ?_⟩,
    ⟨_, generatePassword_eq T fuel 8 digits g hd, rfl, ?_, ?_⟩⟩
  · exact picks_mem charSet hc g.src _ _
  · simp [picks_length]
  · exact picks_mem digits hd g.src _ _

/-- C6 at a concrete input: length 5, alphabet "aA1". -/
theorem generatePassword_subset_witness :
    bytes "aA1" ≠ [] ∧
      ((∃ r, generatePassword noTables 0 5 (bytes "aA1") ⟨fun k => 2 * k, 0⟩ = Run.done r ∧
          r.err = none ∧ ∀ b ∈ r.password, b ∈ bytes "aA1") ∧
        (∃ r, generatePassword noTables 0 8 digits ⟨fun k => 2 * k, 0⟩ = Run.done r ∧
          r.err = none ∧ r.password.length = 8 ∧ ∀ b ∈ r.password, b ∈ digits)) :=
  ⟨by decide,
    generatePassword_subset noTables 0 5 (bytes "aA1") ⟨fun k => 2 * k, 0⟩ (by decide)⟩

/-- C7 (empty alphabet).  On the empty alphabet `generatePassword` returns the empty
string and the empty-character-set error, for every length (positive, zero or
negative), source and fuel; and on every alphabet it returns, with an error exactly
when the alphabet is empty. -/
theorem generatePassword_error_iff (T : UnicodeTables) (fuel : Nat) (length : Int)
    (g : Rand) :
    generatePassword T fuel length [] g = Run.done ⟨[], some emptyCharSetError, g⟩ ∧
      ∀ charSet : List Nat, ∃ r, generatePassword T fuel length charSet g = Run.done r ∧
        (r.err ≠ none ↔ charSet = []) := by
  refine ⟨generatePassword_nil T fuel length g, ?_⟩
  intro charSet
  by_cases hc : charSet = []
  · subst hc
    exact ⟨_, generatePassword_nil T fuel length g, by simp⟩
  · exact ⟨_, generatePassword_eq T fuel length charSet g hc, by simp [hc]⟩

/-- C8 (termination).  For a non-empty alphabet, whatever the length and the random
source, `generatePassword` returns one and the same result for every fuel, the fuel 0
that allows no nested call included: the regeneration never runs.  So does
`generatePassword(1, "aA1")`. -/
theorem generatePassword_terminates (T : UnicodeTables) (length : Int)
    (charSet : List Nat) (g : Rand) (hc : charSet ≠ []) :
    (∃ r, ∀ fuel, generatePassword T fuel length charSet g = Run.done r) ∧
      (∃ r, ∀ fuel, generatePassword T fuel 1 (bytes "aA1") g = Run.done r) :=
  ⟨⟨_, fun fuel => generatePassword_eq T fuel length charSet g hc⟩,
    ⟨_, fun fuel => generatePassword_eq T fuel 1 (bytes "aA1") g (by decide)⟩⟩

/-- C8 at a concrete input: length 2, alphabet "0aA~". -/
theorem generatePassword_terminates_witness :
    bytes "0aA~" ≠ [] ∧
      ((∃ r, ∀ fuel,
          generatePassword noTables fuel 2 (bytes "0aA~") ⟨fun k => k + 1, 0⟩ = Run.done r) ∧
        (∃ r, ∀ fuel,
          generatePassword noTables fuel 1 (bytes "aA1") ⟨fun k => k + 1, 0⟩ = Run.done r)) :=
  ⟨by decide,
    generatePassword_terminates noTables 2 (bytes "0aA~") ⟨fun k => k + 1, 0⟩ (by decide)⟩

/-- C9 (alphabet construction equals its reference definition).  `buildCharSet`
returns the concatenation of the enabled classes, in the order digits, letters,
specials, without the characters that occur in the exclusion string and with the
others in their order; with the empty exclusion string it returns the
concatenation. -/
theorem buildCharSet_eq_ref (useDigits useLetters useSpecials : Bool) (exclude : List Nat) :
    buildCharSet useDigits useLetters useSpecials exclude =
        buildAlphabetRef useDigits useLetters useSpecials exclude ∧
      buildCharSet useDigits useLetters useSpecials [] =
        enabledChars useDigits useLetters useSpecials := by
  constructor
  · rw [buildCharSet_eq_filter]
    unfold buildAlphabetRef
    apply List.filter_congr
    intro b hb
    have hlt := enabledChars_ascii _ _ _ b hb
    have := ascii_mem_rangeRunes_iff b hlt exclude
    by_cases hx : b ∈ exclude
    · simp [hx, this.2 hx]
    · have hr : (b : Int) ∉ rangeRunes exclude := fun h => hx (this.1 h)
      simp [hx, hr]
  · rw [buildCharSet_eq_filter]
    simp

/-- C10 (all classes disabled).  With no class enabled `buildCharSet` returns the
empty alphabet for every exclusion string, and `generatePassword` on that alphabet
returns the empty-character-set error for every length. -/
theorem buildCharSet_disabled (exclude : List Nat) :
    buildCharSet false false false exclude = [] ∧
      ∀ (T : UnicodeTables) (fuel : Nat) (length : Int) (g : Rand),
        generatePassword T fuel length (buildCharSet false false false exclude) g =
          Run.done ⟨[], some emptyCharSetError, g⟩ := by
  have h : buildCharSet false false false exclude = [] := by
    simp [buildCharSet]
  refine ⟨h, ?_⟩
  intro T fuel length g
  rw [h]
  exact generatePassword_nil T fuel length g

/-- C11 as stated fails: with a valid log level, length 1, all classes enabled, no
exclusion and count `2^62`, none of the five fatal conditions holds, and `main` does
not end with exit code 0: `make([]string, count)` on line 76 panics. -/
theorem main_exit_code_huge_count :
    ¬ (onlyError (bytes "error") = false ∨ (1 : Int) ≤ 0 ∨ (4611686018427387904 : Int) ≤ 0 ∨
        (true = false ∧ true = false ∧ true = false) ∨
        buildCharSet true true true [] = []) ∧
      main noTables onlyError maxSlice64 0
          ⟨1, true, true, true, 4611686018427387904, [], bytes "error"⟩ ⟨fun k => k, 0⟩ =
        Run.panicked ∧
      ¬ ∃ r, main noTables onlyError maxSlice64 0
          ⟨1, true, true, true, 4611686018427387904, [], bytes "error"⟩ ⟨fun k => k, 0⟩ =
        Run.done r ∧ r.exitCode = 0 := by
  have hp : main noTables onlyError maxSlice64 0
      ⟨1, true, true, true, 4611686018427387904, [], bytes "error"⟩ ⟨fun k => k, 0⟩ =
      Run.panicked :=
    main_panics noTables onlyError maxSlice64 0
      ⟨1, true, true, true, 4611686018427387904, [], bytes "error"⟩ ⟨fun k => k, 0⟩
      (by decide) (by decide) (by decide) (by decide) (by decide) (by decide)
  refine ⟨by decide, hp, ?_⟩
  rintro ⟨r, hr, _⟩
  rw [hp] at hr
  cases hr

/-- C11 (fatal configuration errors), amended.  `main` never diverges.  It ends with
exit code 1 and no line on standard output exactly when the log level is invalid, or
the length is not positive, or the count is not positive, or no class is enabled, or
the alphabet of `buildCharSet` is empty.  In every other case it ends with exit code
0 when the count is at most the largest length that `make([]string, count)` accepts,
and panics on line 76, before any output, when the count is larger. -/
theorem main_exit_code (T : UnicodeTables) (levelOk : List Nat → Bool) (maxSlice : Nat)
    (fuel : Nat) (cfg : Config) (g : Rand) :
    main T levelOk maxSlice fuel cfg g ≠ Run.diverge ∧
      ((∃ r, main T levelOk maxSlice fuel cfg g = Run.done r ∧
          r.exitCode = 1 ∧ r.stdout = []) ↔
        (levelOk cfg.logLevel = false ∨ cfg.length ≤ 0 ∨ cfg.count ≤ 0 ∨
          (cfg.useDigits = false ∧ cfg.useLetters = false ∧ cfg.useSpecials = false) ∨
          buildCharSet cfg.useDigits cfg.useLetters cfg.useSpecials cfg.exclude = [])) ∧
      (¬ (levelOk cfg.logLevel = false ∨ cfg.length ≤ 0 ∨ cfg.count ≤ 0 ∨
          (cfg.useDigits = false ∧ cfg.useLetters = false ∧ cfg.useSpecials = false) ∨
          buildCharSet cfg.useDigits cfg.useLetters cfg.useSpecials cfg.exclude = []) →
        (cfg.count ≤ (maxSlice : Int) →
          ∃ r, main T levelOk maxSlice fuel cfg g = Run.done r ∧ r.exitCode = 0) ∧
        ((maxSlice : Int) < cfg.count →
          main T levelOk maxSlice fuel cfg g = Run.panicked)) := by
  by_cases h : levelOk cfg.logLevel = false ∨ cfg.length ≤ 0 ∨ cfg.count ≤ 0 ∨
      (cfg.useDigits = false ∧ cfg.useLetters = false ∧ cfg.useSpecials = false) ∨
      buildCharSet cfg.useDigits cfg.useLetters cfg.useSpecials cfg.exclude = []
  · have hf := main_fatal T levelOk maxSlice fuel cfg g h
    refine ⟨?_, ?_, fun hn => absurd h hn⟩
    · rw [hf]; simp
    · exact ⟨fun _ => h, fun _ => ⟨_, hf, rfl, rfl⟩⟩
  · have h' := h
    simp only [not_or, Bool.not_eq_false, not_le, not_and] at h'
    obtain ⟨hlvl, hlen, hcount, hcls, hne⟩ := h'
    have hcls1 : cfg.useDigits = true ∨ cfg.useLetters = true ∨ cfg.useSpecials = true := by
      by_cases hd : cfg.useDigits = true
      · exact Or.inl hd
      · by_cases hl : cfg.useLetters = true
        · exact Or.inr (Or.inl hl)
        · exact Or.inr (Or.inr (by simpa using hcls (by simpa using hd) (by simpa using hl)))
    have hok := main_ok T levelOk maxSlice fuel cfg g hlvl hlen hcount hcls1 hne
    have hpanic := main_panics T levelOk maxSlice fuel cfg g hlvl hlen hcount hcls1 hne
    by_cases hmax : cfg.count ≤ (maxSlice : Int)
    · refine ⟨?_, ⟨?_, fun hc => absurd hc h⟩, fun _ => ⟨fun _ => ⟨_, hok hmax, rfl⟩, ?_⟩⟩
      · rw [hok hmax]; simp
      · rintro ⟨r, hr, hcode, _⟩
        rw [hok hmax] at hr
        cases hr
        simp at hcode
      · intro hlt
        omega
    · have hlt : (maxSlice : Int) < cfg.count := by omega
      refine ⟨?_, ⟨?_, fun hc => absurd hc h⟩, fun _ => ⟨fun hle => absurd hle hmax, ?_⟩⟩
      · rw [hpanic hlt]; simp
      · rintro ⟨r, hr, _⟩
        rw [hpanic hlt] at hr
        cases hr
      · intro _
        exact hpanic hlt

/-- C12 as stated fails: the configuration with a valid log level, length 18, all
classes enabled, no exclusion and count `2^62` passes every check of `main`, and
`main` prints nothing: `make([]string, count)` on line 76 panics. -/
theorem main_prints_count_huge_count :
    (onlyError (bytes "error") = true ∧ (0 : Int) < 18 ∧ (0 : Int) < 4611686018427387904 ∧
        buildCharSet true true true [] ≠ []) ∧
      main noTables onlyError maxSlice64 0
          ⟨18, true, true, true, 4611686018427387904, [], bytes "error"⟩ ⟨fun k => 3 * k, 0⟩ =
        Run.panicked ∧
      ¬ ∃ r, main noTables onlyError maxSlice64 0
          ⟨18, true, true, true, 4611686018427387904, [], bytes "error"⟩ ⟨fun k => 3 * k, 0⟩ =
        Run.done r ∧ (r.stdout.length : Int) = 4611686018427387904 := by
  have hp : main noTables onlyError maxSlice64 0
      ⟨18, true, true, true, 4611686018427387904, [], bytes "error"⟩ ⟨fun k => 3 * k, 0⟩ =
      Run.panicked :=
    main_panics noTables onlyError maxSlice64 0
      ⟨18, true, true, true, 4611686018427387904, [], bytes "error"⟩ ⟨fun k => 3 * k, 0⟩
      (by decide) (by decide) (by decide) (by decide) (by decide) (by decide)
  refine ⟨by decide, hp, ?_⟩
  rintro ⟨r, hr, _⟩
  rw [hp] at hr
  cases hr

/-- C12 (output count), amended.  For a configuration that passes every check of
`main` (valid log level, positive length and count, a class enabled, a non-empty
alphabet) and whose count is at most the largest length that `make([]string, count)`
accepts, `main` prints exactly `count` lines, each of exactly `length` bytes, and line
`i` is the password that the `i`-th call of `generatePassword` returns, the call that
finds the random source as the earlier calls left it. -/
theorem main_prints_count (T : UnicodeTables) (levelOk : List Nat → Bool) (maxSlice : Nat)
    (fuel : Nat) (cfg : Config) (g : Rand) (hlvl : levelOk cfg.logLevel = true)
    (hlen : 0 < cfg.length) (hcount : 0 < cfg.count)
    (hcls : cfg.useDigits = true ∨ cfg.useLetters = true ∨ cfg.useSpecials = true)
    (hne : buildCharSet cfg.useDigits cfg.useLetters cfg.useSpecials cfg.exclude ≠ [])
    (hmax : cfg.count ≤ (maxSlice : Int)) :
    ∃ r, main T levelOk maxSlice fuel cfg g = Run.done r ∧ r.exitCode = 0 ∧
      (r.stdout.length : Int) = cfg.count ∧
      (∀ p ∈ r.stdout, (p.length : Int) = cfg.length) ∧
      ∀ i, i < cfg.count.toNat →
        ∃ res, generatePassword T fuel cfg.length
            (buildCharSet cfg.useDigits cfg.useLetters cfg.useSpecials cfg.exclude)
            ⟨g.src, g.pos + i * cfg.length.toNat⟩ = Run.done res ∧
          res.err = none ∧ r.stdout[i]? = some res.password := by
  refine ⟨_, main_ok T levelOk maxSlice fuel cfg g hlvl hlen hcount hcls hne hmax, rfl,
    ?_, ?_, ?_⟩
  · simp only [slots_length]
    omega
  · intro p hp
    have := slots_mem_length _ _ _ _ _ p hp
    omega
  · intro i hi
    refine ⟨_, generatePassword_eq T fuel cfg.length _ _ hne, rfl, ?_⟩
    exact slots_getElem _ _ _ _ _ i hi

/-- C12 at a concrete input: two passwords of length 3, all classes enabled, "0123"
excluded. -/
theorem main_prints_count_witness :
    ∃ r, main noTables onlyError maxSlice64 0
        ⟨3, true, true, true, 2, bytes "0123", bytes "error"⟩
        ⟨fun k => 7 * k + 5, 0⟩ = Run.done r ∧ r.exitCode = 0 ∧
      (r.stdout.length : Int) = 2 ∧
      (∀ p ∈ r.stdout, (p.length : Int) = 3) ∧
      ∀ i, i < 2 →
        ∃ res, generatePassword noTables 0 3 (buildCharSet true true true (bytes "0123"))
            ⟨fun k => 7 * k + 5, 0 + i * 3⟩ = Run.done res ∧
          res.err = none ∧ r.stdout[i]? = some res.password :=
  main_prints_count noTables onlyError maxSlice64 0
    ⟨3, true, true, true, 2, bytes "0123", bytes "error"⟩
    ⟨fun k => 7 * k + 5, 0⟩ (by decide) (by decide) (by decide) (by decide) (by decide)
    (by decide)

/-- C13 (determinism of alphabet construction).  Two calls of `buildCharSet` with the
same flags and the same exclusion string return the same alphabet whatever the
loggers they are given (their levels and what earlier calls wrote to them): the
alphabet is the one `buildCharSet` computes without a logger. -/
theorem buildCharSetLog_deterministic (useDigits useLetters useSpecials : Bool)
    (exclude : List Nat) (logger1 logger2 : Logger) :
    (buildCharSetLog useDigits useLetters useSpecials exclude logger1).1 =
        (buildCharSetLog useDigits useLetters useSpecials exclude logger2).1 ∧
      (buildCharSetLog useDigits useLetters useSpecials exclude logger1).1 =
        buildCharSet useDigits useLetters useSpecials exclude := by
  simp only [buildCharSetLog_fst, and_self]

/-- C14 (the generation error branch is unreachable from `main`).  For a configuration
that passes the checks of `main`: whenever `main` returns it has skipped no slot, and
it does return when `make` accepts the count; the generation loop, started in any
state, returns without having skipped a slot; and every call of `generatePassword`
with the alphabet and the length of `main` returns without error, whatever the state
of the random source. -/
theorem main_never_skips (T : UnicodeTables) (levelOk : List Nat → Bool) (maxSlice : Nat)
    (fuel : Nat) (cfg : Config) (g : Rand) (hlvl : levelOk cfg.logLevel = true)
    (hlen : 0 < cfg.length) (hcount : 0 < cfg.count)
    (hcls : cfg.useDigits = true ∨ cfg.useLetters = true ∨ cfg.useSpecials = true)
    (hne : buildCharSet cfg.useDigits cfg.useLetters cfg.useSpecials cfg.exclude ≠ []) :
    (∀ r, main T levelOk maxSlice fuel cfg g = Run.done r → r.skipped = 0) ∧
      (cfg.count ≤ (maxSlice : Int) →
        ∃ r, main T levelOk maxSlice fuel cfg g = Run.done r ∧ r.skipped = 0) ∧
      (∀ (n i : Nat) (st : LoopState),
        ∃ st1, genLoop T fuel cfg.length
            (buildCharSet cfg.useDigits cfg.useLetters cfg.useSpecials cfg.exclude) n i st =
              Run.done st1 ∧ st1.skipped = st.skipped) ∧
      ∀ g1 : Rand, ∃ res, generatePassword T fuel cfg.length
          (buildCharSet cfg.useDigits cfg.useLetters cfg.useSpecials cfg.exclude) g1 =
            Run.done res ∧ res.err = none := by
  have hok := main_ok T levelOk maxSlice fuel cfg g hlvl hlen hcount hcls hne
  have hpanic := main_panics T levelOk maxSlice fuel cfg g hlvl hlen hcount hcls hne
  refine ⟨?_, fun hmax => ⟨_, hok hmax, rfl⟩, genLoop_skipped T fuel cfg.length _ hne,
    fun g1 => ⟨_, generatePassword_eq T fuel cfg.length _ g1 hne, rfl⟩⟩
  intro r hr
  by_cases hmax : cfg.count ≤ (maxSlice : Int)
  · rw [hok hmax] at hr
    cases hr
    rfl
  · rw [hpanic (by omega)] at hr
    cases hr

/-- C14 at a concrete input: five passwords of length 10, only letters enabled, "abc"
excluded. -/
theorem main_never_skips_witness :
    (∀ r, main noTables onlyError maxSlice64 0
        ⟨10, false, true, false, 5, bytes "abc", bytes "error"⟩ ⟨fun k => k * k, 0⟩ =
          Run.done r → r.skipped = 0) ∧
      ((5 : Int) ≤ (maxSlice64 : Int) →
        ∃ r, main noTables onlyError maxSlice64 0
          ⟨10, false, true, false, 5, bytes "abc", bytes "error"⟩ ⟨fun k => k * k, 0⟩ =
            Run.done r ∧ r.skipped = 0) ∧
      (∀ (n i : Nat) (st : LoopState),
        ∃ st1, genLoop noTables 0 10 (buildCharSet false true false (bytes "abc")) n i st =
          Run.done st1 ∧ st1.skipped = st.skipped) ∧
      ∀ g1 : Rand, ∃ res, generatePassword noTables 0 10
          (buildCharSet false true false (bytes "abc")) g1 = Run.done res ∧ res.err = none :=
  main_never_skips noTables onlyError maxSlice64 0
    ⟨10, false, true, false, 5, bytes "abc", bytes "error"⟩ ⟨fun k => k * k, 0⟩
    (by decide) (by decide) (by decide) (by decide) (by decide)

/-- C15 (`isPasswordValid` is constantly true).  For every byte string, valid UTF-8 or
not, and whatever the Unicode tables beyond Latin-1, `isPasswordValid` returns true:
whenever the password has a character of a class constant, the loop has set the flag
of that class. -/
theorem isPasswordValid_always_true (T : UnicodeTables) (password : List Nat) :
    isPasswordValid T password = true ∧
      (ContainsAny password digits = true → (validFlags T password).hasDigit = true) ∧
      (ContainsAny password letters = true → (validFlags T password).hasLetter = true) ∧
      (ContainsAny password specials = true → (validFlags T password).hasSpecial = true) :=
  ⟨isPasswordValid_eq_true T password, validFlags_of_containsAny T password⟩

/-- C16 (`generatePassword` returns its first candidate).  For a non-empty alphabet,
any length and any sequence of drawn indices below the alphabet's length,
`generatePassword` returns the same result for every fuel (fuel 0 allows no nested
call): no error, exactly `length` draws consumed (none when `length ≤ 0`), a candidate
that `isPasswordValid` accepts, and the string whose `k`-th byte is the alphabet's
byte at the `k`-th drawn index, the empty string when `length ≤ 0`. -/
theorem generatePassword_first_candidate (T : UnicodeTables) (length : Int)
    (charSet : List Nat) (g : Rand) (hc : charSet ≠ [])
    (hidx : ∀ k, g.src k < charSet.length) :
    ∃ r, (∀ fuel, generatePassword T fuel length charSet g = Run.done r) ∧
      r.err = none ∧ r.rng.src = g.src ∧ r.rng.pos = g.pos + length.toNat ∧
      isPasswordValid T r.password = true ∧
      r.password.length = length.toNat ∧
      (∀ k, k < length.toNat → r.password[k]? = charSet[g.src (g.pos + k)]?) ∧
      (length ≤ 0 → r.password = [] ∧ r.rng.pos = g.pos) := by
  refine ⟨_, fun fuel => generatePassword_eq T fuel length charSet g hc, rfl, rfl, rfl,
    isPasswordValid_eq_true T _, picks_length _ _ _ _, ?_, ?_⟩
  · intro k hk
    simp only []
    rw [picks_getElem charSet g.src _ _ k hk, Nat.mod_eq_of_lt (hidx _),
      List.getD_eq_getElem _ _ (hidx _), List.getElem?_eq_getElem (hidx _)]
  · intro hl
    have h0 : length.toNat = 0 := by omega
    simp only [h0, picks_zero, Nat.add_zero, and_self]

/-- C16 at a concrete input: alphabet "aA1", length 4, drawn indices 1, 2, 0, 1, ... -/
theorem generatePassword_first_candidate_witness :
    ∃ r, (∀ fuel, generatePassword noTables fuel 4 (bytes "aA1") ⟨fun k => (k + 1) % 3, 0⟩ =
        Run.done r) ∧
      r.err = none ∧ r.rng.src = (fun k => (k + 1) % 3) ∧ r.rng.pos = 0 + (4 : Int).toNat ∧
      isPasswordValid noTables r.password = true ∧
      r.password.length = (4 : Int).toNat ∧
      (∀ k, k < (4 : Int).toNat →
        r.password[k]? = (bytes "aA1")[(fun k => (k + 1) % 3) (0 + k)]?) ∧
      ((4 : Int) ≤ 0 → r.password = [] ∧ r.rng.pos = 0) :=
  generatePassword_first_candidate noTables 4 (bytes "aA1") ⟨fun k => (k + 1) % 3, 0⟩
    (by decide) (fun k => by
      have h : (bytes "aA1").length = 3 := by decide
      rw [h]
      exact Nat.mod_lt _ (by decide))

/-- C17 (no out-of-range access in `generatePassword`).  `generatePassword` never
panics.  The bound of every draw is the alphabet's length: the draw panics only for
the empty alphabet, on which `generatePassword` returns the error with the random
source untouched; on a non-empty alphabet the bound is positive, every drawn index
is a valid index of the alphabet, and the loop completes. -/
theorem generatePassword_no_panic (T : UnicodeTables) (fuel : Nat) (length : Int)
    (charSet : List Nat) (g : Rand) :
    generatePassword T fuel length charSet g ≠ Run.panicked ∧
      (∀ g1 : Rand, g1.Intn (charSet.length : Int) = none → charSet = []) ∧
      (charSet = [] →
        generatePassword T fuel length charSet g = Run.done ⟨[], some emptyCharSetError, g⟩) ∧
      (charSet ≠ [] →
        (0 : Int) < (charSet.length : Int) ∧
        (∀ (g1 g2 : Rand) (idx : Int), g1.Intn (charSet.length : Int) = some (idx, g2) →
          0 ≤ idx ∧ idx < (charSet.length : Int) ∧ ∃ b, byteAt charSet idx = some b) ∧
        ∀ (n : Nat) (g1 : Rand) (password : List Nat),
          drawLoop charSet n g1 password ≠ none) := by
  refine ⟨?_, ?_, ?_, ?_⟩
  · by_cases hc : charSet = []
    · subst hc
      rw [generatePassword_nil]
      simp
    · rw [generatePassword_eq T fuel length charSet g hc]
      simp
  · intro g1 h
    by_contra hc
    rw [intn_length charSet hc g1] at h
    simp at h
  · intro hc
    subst hc
    exact generatePassword_nil T fuel length g
  · intro hc
    have hpos : 0 < charSet.length := List.length_pos.2 hc
    refine ⟨by omega, ?_, ?_⟩
    · intro g1 g2 idx h
      rw [intn_length charSet hc g1] at h
      simp only [Option.some.injEq, Prod.mk.injEq] at h
      have hlt : g1.src g1.pos % charSet.length < charSet.length := Nat.mod_lt _ hpos
      rw [← h.1]
      exact ⟨by omega, by omega, _, byteAt_mod charSet hc _⟩
    · intro n g1 password
      rw [drawLoop_eq charSet hc]
      simp

/-- C18 (the alphabet has no repeated character).  The three class constants together
have no repeated character, the alphabet of `buildCharSet` has none either, and its
length is `10 * [digits] + 52 * [letters] + 12 * [specials]` minus the number of
distinct characters of the enabled classes that occur in the exclusion string. -/
theorem buildCharSet_nodup (useDigits useLetters useSpecials : Bool) (exclude : List Nat) :
    (digits ++ letters ++ specials).Nodup ∧
      (buildCharSet useDigits useLetters useSpecials exclude).Nodup ∧
      (buildCharSet useDigits useLetters useSpecials exclude).length =
        10 * useDigits.toNat + 52 * useLetters.toNat + 12 * useSpecials.toNat -
          ((enabledChars useDigits useLetters useSpecials).toFinset ∩ exclude.toFinset).card := by
  refine ⟨constants_nodup, ?_, ?_⟩
  · rw [buildCharSet_eq_filter]
    exact List.Nodup.filter _ (enabledChars_nodup _ _ _)
  · rw [buildCharSet_eq_filter, card_inter_eq, ← enabledChars_length]
    have := filter_length_split (enabledChars useDigits useLetters useSpecials)
      (fun b => exclude.contains b)
    omega

/-- C19 (the alphabet depends only on which enabled characters are excluded).  Two
exclusion strings in which the same characters of the enabled classes occur give the
same alphabet; and an exclusion string with no character of an enabled class gives
the alphabet of the empty exclusion string. -/
theorem buildCharSet_congr (useDigits useLetters useSpecials : Bool) (e1 e2 : List Nat)
    (h : ∀ c ∈ enabledChars useDigits useLetters useSpecials, c ∈ e1 ↔ c ∈ e2) :
    buildCharSet useDigits useLetters useSpecials e1 =
        buildCharSet useDigits useLetters useSpecials e2 ∧
      ((∀ c ∈ e1, c ∉ enabledChars useDigits useLetters useSpecials) →
        buildCharSet useDigits useLetters useSpecials e1 =
          buildCharSet useDigits useLetters useSpecials []) := by
  constructor
  · rw [buildCharSet_eq_filter, buildCharSet_eq_filter]
    apply List.filter_congr
    intro c hc
    have := h c hc
    by_cases h1 : c ∈ e1
    · simp [h1, this.1 h1]
    · have h2 : c ∉ e2 := fun hx => h1 (this.2 hx)
      simp [h1, h2]
  · intro hout
    rw [buildCharSet_eq_filter, buildCharSet_eq_filter]
    apply List.filter_congr
    intro c hc
    have h1 : c ∉ e1 := fun hx => hout c hx hc
    simp [h1]

/-- C19 at a concrete input: digits and specials enabled; "1a3z1" and "é31" (bytes
`C3 A9 33 31`) exclude the same enabled characters, "1" and "3". -/
theorem buildCharSet_congr_witness :
    (∀ c ∈ enabledChars true false true, c ∈ bytes "1a3z1" ↔ c ∈ [0xC3, 0xA9, 0x33, 0x31]) ∧
      (buildCharSet true false true (bytes "1a3z1") =
          buildCharSet true false true [0xC3, 0xA9, 0x33, 0x31] ∧
        ((∀ c ∈ bytes "1a3z1", c ∉ enabledChars true false true) →
          buildCharSet true false true (bytes "1a3z1") = buildCharSet true false true [])) :=
  ⟨by decide, buildCharSet_congr true false true (bytes "1a3z1") [0xC3, 0xA9, 0x33, 0x31]
    (by decide)⟩

end Genpass
